import Mathlib

/-!
Verification of the GP (genetic programming) tree core of the `evco`
repository: the owned tree representation, depth-first pre-order traversal,
the `TreeGen` depth-control policies (`gen.rs`), the `Individual` wrapper
with its cached node count and `prune_at` (`mod.rs`), and the `Crossover`
operator family (`crossover.rs`).

The repository's `tree` module itself (the `Tree` capability, `BoxTree`,
`count_nodes`, `map_while`, `map`) is not among the given source files; those
traversal primitives are modelled from the specification: depth-first
pre-order (parent before children, children in order), 0-based pre-order
indexing, depth measured from the root which sits at depth 0.

Randomness is shallowly embedded: each call of the `rand` crate's
`gen_range`/`gen_bool` is given the raw draw as an explicit argument (a `Nat`
sample, a `Bool` coin as a function of the requested probability), and the
panicking behaviour of `gen_range` on an empty range, of `gen_bool` on a
probability obtained by dividing by zero, and of `usize` subtraction
underflow is embedded as `Option`/`none`.
-/

/-- An owned GP tree: a root node carrying a domain payload and the ordered
list of its owned children.  This is the `BoxTree`/`Tree` shape the core
operates on: acyclic, single-owner, children accessed in order. -/
inductive BTree (α : Type) where
  | node : α → List (BTree α) → BTree α

variable {α : Type}

mutual
/-- Modelled from the spec: the counting traversal (`count_nodes` of the
missing tree module) visits every node depth-first pre-order and returns the
total node count. -/
def count_nodes : BTree α → Nat
  | .node _ cs => 1 + count_list cs
/-- Pre-order node count of a forest (the children lists met during
`count_nodes`). -/
def count_list : List (BTree α) → Nat
  | [] => 0
  | c :: cs => count_nodes c + count_list cs
end

mutual
/-- Modelled from the spec: the find-and-act traversal (`map_while` of the
missing tree module) locating the node at 0-based depth-first pre-order
index `i`; `none` when `i` is out of range (the traversal exhausts the tree
without acting). -/
def subtree_at : BTree α → Nat → Option (BTree α)
  | .node a cs, i =>
    if i = 0 then some (.node a cs) else subtree_at_list cs (i - 1)
/-- Pre-order lookup in a forest: index `i` counts across the trees in
order. -/
def subtree_at_list : List (BTree α) → Nat → Option (BTree α)
  | [], _ => none
  | c :: cs, i =>
    if i < count_nodes c then subtree_at c i
    else subtree_at_list cs (i - count_nodes c)
end

mutual
/-- Modelled from the spec: the in-place action of `map_while` at pre-order
index `i` — the whole subtree rooted there is replaced by `s` (one half of a
`mem::swap`); out-of-range indices leave the tree unchanged. -/
def replace_at : BTree α → Nat → BTree α → BTree α
  | .node a cs, i, s =>
    if i = 0 then s else .node a (replace_at_list cs (i - 1) s)
/-- Pre-order replacement in a forest. -/
def replace_at_list : List (BTree α) → Nat → BTree α → List (BTree α)
  | [], _, _ => []
  | c :: cs, i, s =>
    if i < count_nodes c then replace_at c i s :: cs
    else c :: replace_at_list cs (i - count_nodes c) s
end

/-- Modelled from the `rand` crate used by the source: `Rng::gen_range(low,
high)` draws uniformly from `[low, high)` and panics when the range is empty
(`low >= high`).  The raw draw is supplied as `sample`; the panic is
`none`. -/
def gen_range (low high sample : Nat) : Option Nat :=
  if low < high then some (low + sample % (high - low)) else none

/-- `Individual` (gp/mod.rs): one owned tree plus the cached depth-first node
count `nodes_count`. -/
structure Individual (α : Type) where
  tree : BTree α
  nodes_count : Nat

/-- `Individual::recalculate_metadata` (gp/mod.rs): recompute `nodes_count`
from the tree by the counting traversal. -/
def Individual.recalculate_metadata (ind : Individual α) : Individual α :=
  { ind with nodes_count := count_nodes ind.tree }

/-- `Individual::new_from_tree` (gp/mod.rs): wrap a pre-built tree, metadata
computed immediately. -/
def Individual.new_from_tree (t : BTree α) : Individual α :=
  Individual.recalculate_metadata { tree := t, nodes_count := 0 }

/-- `first_leaf` (gp/mod.rs): repeatedly descend into the first child until a
childless node is reached. -/
def first_leaf : BTree α → BTree α
  | .node a [] => .node a []
  | .node _ (c :: _) => first_leaf c

mutual
/-- `Individual::prune_at`'s traversal body (gp/mod.rs): full pre-order
traversal (the tree module's `map`, modelled from the spec) visiting each
node with its depth from the root (root at depth 0); a node at depth
`max_depth - 1` that has at least one child is swapped with a copy of its
first leaf, so the traversal does not descend further there. -/
def prune_go (max_depth : Nat) : BTree α → Nat → BTree α
  | .node a cs, depth =>
    if depth = max_depth - 1 ∧ cs.isEmpty = false then first_leaf (.node a cs)
    else .node a (prune_go_list max_depth cs (depth + 1))
/-- `prune_at`'s traversal over a children list (all children at the same
depth). -/
def prune_go_list (max_depth : Nat) : List (BTree α) → Nat → List (BTree α)
  | [], _ => []
  | c :: cs, depth => prune_go max_depth c depth :: prune_go_list max_depth cs depth
end

/-- `Individual::prune_at` (gp/mod.rs): run the pruning traversal from the
root.  Note the source does not recalculate metadata here. -/
def Individual.prune_at (ind : Individual α) (max_depth : Nat) : Individual α :=
  { ind with tree := prune_go max_depth ind.tree 0 }

/-- The subtree exchange at the heart of `Crossover::mate_one_point`
(gp/crossover.rs): locate pre-order index `i1` in `t1` and `i2` in `t2` via
the find-and-act traversals and `mem::swap` the two subtrees; if either index
is out of range the traversals exhaust without swapping. -/
def one_point_exchange (t1 t2 : BTree α) (i1 i2 : Nat) : BTree α × BTree α :=
  match subtree_at t1 i1, subtree_at t2 i2 with
  | some s1, some s2 => (replace_at t1 i1 s2, replace_at t2 i2 s1)
  | _, _ => (t1, t2)

/-- `Crossover::mate_one_point` (gp/crossover.rs): draw
`i1 ∈ [0, indv1.nodes_count)` and `i2 ∈ [0, indv2.nodes_count)` (raw draws
`r1`, `r2`), exchange the subtrees at those pre-order indices, then
recalculate both individuals' metadata unconditionally.  `none` is the panic
of a draw over an empty range. -/
def mate_one_point (ind1 ind2 : Individual α) (r1 r2 : Nat) :
    Option (Individual α × Individual α) :=
  match gen_range 0 ind1.nodes_count r1, gen_range 0 ind2.nodes_count r2 with
  | some i1, some i2 =>
    let p := one_point_exchange ind1.tree ind2.tree i1 i2
    some (Individual.recalculate_metadata { ind1 with tree := p.1 },
          Individual.recalculate_metadata { ind2 with tree := p.2 })
  | _, _ => none

/-- `Crossover::mate_hard_prune` (gp/crossover.rs): the exact `one_point`
procedure, then `prune_at(max_depth)` on individual 1 only. -/
def mate_hard_prune (ind1 ind2 : Individual α) (max_depth r1 r2 : Nat) :
    Option (Individual α × Individual α) :=
  (mate_one_point ind1 ind2 r1 r2).map
    (fun p => (p.1.prune_at max_depth, p.2))

/-- The result of the tree-2 walk of `Crossover::mate_one_point_leaf_biased`
(gp/crossover.rs): `underflow` is the `usize` underflow of
`target_index2 -= 1` executed at 0; `cont` carries the threaded
`(target_index2, node_counter)` state when the subtree is exhausted without a
swap; `found` carries the rebuilt subtree (the matched node replaced by the
tree-1 subtree) and the extracted old node. -/
inductive WalkRes (σ : Type) (α : Type) where
  | underflow : WalkRes σ α
  | cont : Nat → Nat → WalkRes σ α
  | found : σ → BTree α → WalkRes σ α

mutual
/-- The inner `map_while` visitor of `mate_one_point_leaf_biased`
(gp/crossover.rs): pre-order over tree 2 with mutable `target_index2` and
`node_counter`.  A node whose leaf/internal classification mismatches the
coin decrements `target_index2` and continues; a matching node swaps with the
tree-1 subtree `s1` when `node_counter == target_index2`, else increments
`node_counter` and continues. -/
def lb_walk (leaf : Bool) (s1 : BTree α) :
    BTree α → Nat → Nat → WalkRes (BTree α) α
  | .node a cs, target2, counter =>
    if (cs.isEmpty) ≠ leaf then
      match target2 with
      | 0 => .underflow
      | t + 1 =>
        match lb_walk_list leaf s1 cs t counter with
        | .underflow => .underflow
        | .cont t' k' => .cont t' k'
        | .found cs' ex => .found (.node a cs') ex
    else
      if counter = target2 then .found s1 (.node a cs)
      else
        match lb_walk_list leaf s1 cs target2 (counter + 1) with
        | .underflow => .underflow
        | .cont t' k' => .cont t' k'
        | .found cs' ex => .found (.node a cs') ex
/-- The same walk across a children list, threading the state left to
right. -/
def lb_walk_list (leaf : Bool) (s1 : BTree α) :
    List (BTree α) → Nat → Nat → WalkRes (List (BTree α)) α
  | [], target2, counter => .cont target2 counter
  | c :: cs, target2, counter =>
    match lb_walk leaf s1 c target2 counter with
    | .underflow => .underflow
    | .found c' ex => .found (c' :: cs) ex
    | .cont t' k' =>
      match lb_walk_list leaf s1 cs t' k' with
      | .underflow => .underflow
      | .found cs' ex => .found (c :: cs') ex
      | .cont t'' k'' => .cont t'' k''
end

/-- `Crossover::mate_one_point_leaf_biased` (gp/crossover.rs): flip the bias
coin (outcome `leaf`), draw both indices (raw draws `r1`, `r2`), locate
pre-order index `target_index1` in tree 1, then run the biased walk on
tree 2.  No metadata recalculation happens in any branch.  `none` embeds the
two fatal paths: a draw over an empty range, and the `target_index2`
underflow. -/
def mate_one_point_leaf_biased (ind1 ind2 : Individual α) (leaf : Bool)
    (r1 r2 : Nat) : Option (Individual α × Individual α) :=
  match gen_range 0 ind1.nodes_count r1, gen_range 0 ind2.nodes_count r2 with
  | some i1, some i2 =>
    match subtree_at ind1.tree i1 with
    | none => some (ind1, ind2)
    | some s1 =>
      match lb_walk leaf s1 ind2.tree i2 0 with
      | .underflow => none
      | .cont _ _ => some (ind1, ind2)
      | .found t2 ex =>
        some ({ ind1 with tree := replace_at ind1.tree i1 ex },
              { ind2 with tree := t2 })
  | _, _ => none

/-- `TreeGenMode` (gp/tree/gen.rs): `Perfect` and `FullRanged` carry the
chosen depth drawn at construction. -/
inductive TreeGenMode where
  | Perfect : Nat → TreeGenMode
  | Full : TreeGenMode
  | FullRanged : Nat → TreeGenMode
deriving DecidableEq

/-- `TreeGen` (gp/tree/gen.rs) minus its owned random source, which the
shallow embedding threads explicitly instead. -/
structure TreeGen where
  mode : TreeGenMode
  min_depth : Nat
  max_depth : Nat

/-- The construction-time draw `rng.gen_range(min_depth, max_depth + 1)`
shared by `TreeGen::perfect` and `TreeGen::full_ranged`: the range
`[min_depth, max_depth + 1)` is never empty over `Nat`, so the draw always
succeeds with this value. -/
def chosen_draw (min_depth max_depth sample : Nat) : Nat :=
  min_depth + sample % (max_depth + 1 - min_depth)

/-- `TreeGen::perfect` (gp/tree/gen.rs): draw the chosen depth, store mode
`Perfect`. -/
def TreeGen.perfect (sample min_depth max_depth : Nat) : TreeGen :=
  { mode := .Perfect (chosen_draw min_depth max_depth sample),
    min_depth := min_depth, max_depth := max_depth }

/-- `TreeGen::full` (gp/tree/gen.rs): no construction-time draw. -/
def TreeGen.full (min_depth max_depth : Nat) : TreeGen :=
  { mode := .Full, min_depth := min_depth, max_depth := max_depth }

/-- `TreeGen::full_ranged` (gp/tree/gen.rs): same construction-time draw as
`perfect`, stored in mode `FullRanged`. -/
def TreeGen.full_ranged (sample min_depth max_depth : Nat) : TreeGen :=
  { mode := .FullRanged (chosen_draw min_depth max_depth sample),
    min_depth := min_depth, max_depth := max_depth }

/-- `TreeGen::have_reached_a_leaf` (gp/tree/gen.rs).  The per-node
`gen_bool` coin is the oracle `gb`, a function of the exact probability
requested.  `none` embeds the fatal path where `depth_interval` is 0, so the
probability argument `1.0 / depth_interval` is a division by zero (infinite,
on which the `rand` crate's `gen_bool` panics). -/
def have_reached_a_leaf (tg : TreeGen) (gb : ℚ → Bool) (current_depth : Nat) :
    Option Bool :=
  match tg.mode with
  | .Perfect chosen_depth => some (decide (current_depth = chosen_depth))
  | .Full =>
    let depth_interval := tg.max_depth - tg.min_depth
    if current_depth = tg.max_depth then some true
    else if tg.min_depth ≤ current_depth then
      if depth_interval = 0 then none
      else some (gb (1 / (depth_interval : ℚ)))
    else some false
  | .FullRanged chosen_depth =>
    let depth_interval := chosen_depth - tg.min_depth
    if current_depth = chosen_depth then some true
    else if tg.min_depth ≤ current_depth then
      if depth_interval = 0 then none
      else some (gb (1 / (depth_interval : ℚ)))
    else some false

/-- Modelled from the spec: the domain `Tree::construct` recursion — a node
built at depth `d` consults the generation context's leaf decision at `d`;
`some true` means a terminal (childless) node is emitted, `some false` means
an internal node whose children (at least one) are each built at depth
`d + 1`.  `GenBy dec d t` holds when `t` is a tree that this recursion can
produce starting at depth `d` under decision function `dec`. -/
inductive GenBy (dec : Nat → Option Bool) : Nat → BTree α → Prop where
  | leaf (d : Nat) (a : α) : dec d = some true → GenBy dec d (.node a [])
  | internal (d : Nat) (a : α) (cs : List (BTree α)) : dec d = some false →
      cs ≠ [] → (∀ t ∈ cs, GenBy dec (d + 1) t) → GenBy dec d (.node a cs)

mutual
/-- The list of depths (from the root at depth 0) of the leaves of a tree
whose root sits at depth `d`, in traversal order. -/
def leaf_depths : BTree α → Nat → List Nat
  | .node _ [], d => [d]
  | .node _ (c :: cs), d => leaf_depths_list (c :: cs) (d + 1)
/-- Leaf depths of a forest of trees all rooted at depth `d`. -/
def leaf_depths_list : List (BTree α) → Nat → List Nat
  | [], _ => []
  | c :: cs, d => leaf_depths c d ++ leaf_depths_list cs d
end

/-- Structural induction for `BTree` with the induction hypothesis available
for every member of the (nested) children list. -/
theorem BTree.ind {P : BTree α → Prop}
    (node : ∀ a cs, (∀ c ∈ cs, P c) → P (.node a cs)) : ∀ t, P t
  | .node a cs => node a cs (fun c hc => BTree.ind node c)
decreasing_by
  simp only [BTree.node.sizeOf_spec]
  have := List.sizeOf_lt_of_mem hc
  omega

/-- Every `BTree` has at least one node (the root). -/
theorem count_nodes_pos (t : BTree α) : 0 < count_nodes t := by
  cases t with
  | node a cs => simp only [count_nodes]; omega

/-- Forest-level half of `subtree_at_isSome`. -/
theorem subtree_at_list_isSome_of (cs : List (BTree α))
    (ih : ∀ c ∈ cs, ∀ i, i < count_nodes c → ∃ u, subtree_at c i = some u) :
    ∀ i, i < count_list cs → ∃ u, subtree_at_list cs i = some u := by
  induction cs with
  | nil => intro i h; simp only [count_list] at h; omega
  | cons c cs ihl =>
    intro i h
    simp only [subtree_at_list]
    by_cases hc : i < count_nodes c
    · simp only [if_pos hc]
      exact ih c (by simp) i hc
    · simp only [if_neg hc]
      apply ihl (fun c' hm => ih c' (by simp [hm]))
      simp only [count_list] at h
      omega

/-- A pre-order index below the node count always locates a subtree. -/
theorem subtree_at_isSome (t : BTree α) :
    ∀ i, i < count_nodes t → ∃ u, subtree_at t i = some u := by
  induction t using BTree.ind with
  | node a cs ih =>
    intro i h
    simp only [subtree_at]
    by_cases h0 : i = 0
    · exact ⟨BTree.node a cs, by simp [h0]⟩
    · simp only [if_neg h0]
      apply subtree_at_list_isSome_of cs ih
      simp only [count_nodes] at h
      omega

/-- Forest-level half of `count_nodes_replace_at`. -/
theorem count_list_replace_at_of (cs : List (BTree α))
    (ih : ∀ c ∈ cs, ∀ i u s, subtree_at c i = some u →
        count_nodes (replace_at c i s) + count_nodes u
          = count_nodes c + count_nodes s) :
    ∀ i u s, subtree_at_list cs i = some u →
      count_list (replace_at_list cs i s) + count_nodes u
        = count_list cs + count_nodes s := by
  induction cs with
  | nil => intro i u s h; simp only [subtree_at_list] at h; exact Option.noConfusion h
  | cons c cs ihl =>
    intro i u s h
    simp only [subtree_at_list] at h
    simp only [replace_at_list]
    by_cases hc : i < count_nodes c
    · simp only [if_pos hc] at h ⊢
      simp only [count_list]
      have := ih c (by simp) i u s h
      omega
    · simp only [if_neg hc] at h ⊢
      simp only [count_list]
      have := ihl (fun c' hm => ih c' (by simp [hm])) (i - count_nodes c) u s h
      omega

/-- Replacing the subtree located at a pre-order index trades node counts
exactly: the new total plus the removed subtree's count equals the old total
plus the inserted subtree's count. -/
theorem count_nodes_replace_at (t : BTree α) :
    ∀ i u s, subtree_at t i = some u →
      count_nodes (replace_at t i s) + count_nodes u
        = count_nodes t + count_nodes s := by
  induction t using BTree.ind with
  | node a cs ih =>
    intro i u s h
    simp only [subtree_at] at h
    simp only [replace_at]
    by_cases h0 : i = 0
    · simp only [if_pos h0] at h ⊢
      cases h
      omega
    · simp only [if_neg h0] at h ⊢
      simp only [count_nodes]
      have := count_list_replace_at_of cs ih (i - 1) u s h
      omega

/-- C1: for every pair of Individuals whose cached `nodes_count` values are
accurate (trees are always non-empty: every `BTree` has a root), `one_point`
crossover succeeds, the sum of the two `nodes_count` values after the call
equals the sum before it, and — metadata having been recomputed
unconditionally for both individuals — each post-call `nodes_count` equals
the true depth-first node count of its tree. -/
theorem one_point_preserves_total_nodes (ind1 ind2 : Individual α) (r1 r2 : Nat)
    (h1 : ind1.nodes_count = count_nodes ind1.tree)
    (h2 : ind2.nodes_count = count_nodes ind2.tree) :
    ∃ a b, mate_one_point ind1 ind2 r1 r2 = some (a, b) ∧
      a.nodes_count + b.nodes_count = ind1.nodes_count + ind2.nodes_count ∧
      a.nodes_count = count_nodes a.tree ∧
      b.nodes_count = count_nodes b.tree := by
  have p1 := count_nodes_pos ind1.tree
  have p2 := count_nodes_pos ind2.tree
  have c1 : 0 < ind1.nodes_count := by omega
  have c2 : 0 < ind2.nodes_count := by omega
  have hr1 : gen_range 0 ind1.nodes_count r1 = some (r1 % ind1.nodes_count) := by
    simp [gen_range, c1]
  have hr2 : gen_range 0 ind2.nodes_count r2 = some (r2 % ind2.nodes_count) := by
    simp [gen_range, c2]
  obtain ⟨s1, hs1⟩ := subtree_at_isSome ind1.tree (r1 % ind1.nodes_count)
    (by have := Nat.mod_lt r1 c1; omega)
  obtain ⟨s2, hs2⟩ := subtree_at_isSome ind2.tree (r2 % ind2.nodes_count)
    (by have := Nat.mod_lt r2 c2; omega)
  refine ⟨Individual.recalculate_metadata
      { ind1 with tree := replace_at ind1.tree (r1 % ind1.nodes_count) s2 },
    Individual.recalculate_metadata
      { ind2 with tree := replace_at ind2.tree (r2 % ind2.nodes_count) s1 },
    ?_, ?_, ?_, ?_⟩
  · simp only [mate_one_point, hr1, hr2, one_point_exchange, hs1, hs2]
  · have e1 := count_nodes_replace_at ind1.tree (r1 % ind1.nodes_count) s1 s2 hs1
    have e2 := count_nodes_replace_at ind2.tree (r2 % ind2.nodes_count) s2 s1 hs2
    simp only [Individual.recalculate_metadata]
    omega
  · simp only [Individual.recalculate_metadata]
  · simp only [Individual.recalculate_metadata]

/-- Witness for `one_point_preserves_total_nodes` at a concrete pair: a
single leaf crossed with a two-node tree. -/
theorem one_point_preserves_total_nodes_witness :
    ∃ a b, mate_one_point (Individual.mk (BTree.node 0 []) 1)
        (Individual.mk (BTree.node 1 [BTree.node 2 []]) 2) 5 7 = some (a, b) ∧
      a.nodes_count + b.nodes_count = 3 ∧
      a.nodes_count = count_nodes a.tree ∧
      b.nodes_count = count_nodes b.tree :=
  one_point_preserves_total_nodes
    (Individual.mk (BTree.node 0 []) 1)
    (Individual.mk (BTree.node 1 [BTree.node 2 []]) 2) 5 7 rfl rfl

/-- C2 counterexample: `prune_at(1)` on `A(B(D,E), C)` (labels A=0, B=1, C=2,
D=3, E=4) does not yield `A(D, C)` — the root A sits at depth
`max_depth - 1 = 0` and is itself replaced, so the result is the single leaf
`D`. -/
theorem prune_at_one_scenario_false :
    ¬ (((Individual.new_from_tree (BTree.node 0
          [BTree.node 1 [BTree.node 3 [], BTree.node 4 []],
           BTree.node 2 []])).prune_at 1).tree
        = BTree.node 0 [BTree.node 3 [], BTree.node 2 []]) := by
  intro h
  have hv : ((Individual.new_from_tree (BTree.node 0
      [BTree.node 1 [BTree.node 3 [], BTree.node 4 []],
       BTree.node 2 []])).prune_at 1).tree = BTree.node 3 [] := rfl
  rw [hv] at h
  simp only [BTree.node.injEq] at h
  exact absurd h.1 (by decide)

/-- C2 amended: `prune_at(max_depth)` is a full traversal that replaces every
visited node with children sitting exactly at depth `max_depth - 1` (root at
depth 0) by a copy of the first leaf reached by repeatedly descending into
first children; on `A(B(D,E), C)` it is `prune_at(2)` that replaces `B` with
`D` yielding `A(D, C)`, while `prune_at(1)` replaces the root `A` itself,
yielding the single leaf `D`. -/
theorem prune_at_cutoff_rule_and_scenario :
    (∀ (β : Type) (a : β) (cs : List (BTree β)) (md : Nat), cs ≠ [] →
        prune_go md (BTree.node a cs) (md - 1) = first_leaf (BTree.node a cs)) ∧
    ((Individual.new_from_tree (BTree.node 0
        [BTree.node 1 [BTree.node 3 [], BTree.node 4 []],
         BTree.node 2 []])).prune_at 2).tree
      = BTree.node 0 [BTree.node 3 [], BTree.node 2 []] ∧
    ((Individual.new_from_tree (BTree.node 0
        [BTree.node 1 [BTree.node 3 [], BTree.node 4 []],
         BTree.node 2 []])).prune_at 1).tree
      = BTree.node 3 [] := by
  refine ⟨?_, rfl, rfl⟩
  intro β a cs md hcs
  cases cs with
  | nil => exact absurd rfl hcs
  | cons c cs => simp [prune_go]

/-- Witness for `prune_at_cutoff_rule_and_scenario` at a concrete node with
one child. -/
theorem prune_at_cutoff_rule_witness :
    prune_go 1 (BTree.node 0 [BTree.node 3 []]) 0
      = first_leaf (BTree.node 0 [BTree.node 3 []]) :=
  prune_at_cutoff_rule_and_scenario.1 Nat 0 [BTree.node 3 []] 1 (by simp)

/-- Membership in the leaf depths of a forest comes from one of its trees. -/
theorem mem_leaf_depths_list {x : Nat} : ∀ (cs : List (BTree α)) (d : Nat),
    x ∈ leaf_depths_list cs d → ∃ t ∈ cs, x ∈ leaf_depths t d := by
  intro cs
  induction cs with
  | nil => intro d h; simp only [leaf_depths_list] at h; exact absurd h (by simp)
  | cons c cs ih =>
    intro d h
    simp only [leaf_depths_list, List.mem_append] at h
    rcases h with h | h
    · exact ⟨c, by simp, h⟩
    · obtain ⟨t, ht, hx⟩ := ih d h
      exact ⟨t, by simp [ht], hx⟩

/-- Under any leaf-decision function, every leaf of a generated tree sits at
a depth where the decision was `some true`. -/
theorem GenBy.leaf_depths_true {dec : Nat → Option Bool} {d : Nat}
    {t : BTree α} (hg : GenBy dec d t) :
    ∀ x ∈ leaf_depths t d, dec x = some true := by
  induction hg with
  | leaf d a h =>
    intro x hx
    simp only [leaf_depths, List.mem_singleton] at hx
    rw [hx]; exact h
  | internal d a cs hdec hne hall ih =>
    intro x hx
    cases cs with
    | nil => exact absurd rfl hne
    | cons c cs' =>
      simp only [leaf_depths] at hx
      obtain ⟨t', ht', hx'⟩ := mem_leaf_depths_list (c :: cs') (d + 1) hx
      exact ih t' ht' x hx'

/-- C3: `perfect` draws its chosen depth at construction from
`[min_depth, max_depth]` (the draw `gen_range(min_depth, max_depth + 1)`),
`have_reached_a_leaf(d)` answers exactly `d == chosen_depth`, and every leaf
of any tree generated under that decision sits at exactly the chosen
depth. -/
theorem perfect_mode_uniform_leaf_depth (sample min_d max_d : Nat)
    (gb : ℚ → Bool) (hrange : min_d ≤ max_d) :
    (min_d ≤ chosen_draw min_d max_d sample ∧
      chosen_draw min_d max_d sample ≤ max_d) ∧
    (∀ d, have_reached_a_leaf (TreeGen.perfect sample min_d max_d) gb d
        = some (decide (d = chosen_draw min_d max_d sample))) ∧
    (∀ (β : Type) (t : BTree β),
        GenBy (have_reached_a_leaf (TreeGen.perfect sample min_d max_d) gb) 0 t →
        ∀ x ∈ leaf_depths t 0, x = chosen_draw min_d max_d sample) := by
  refine ⟨⟨by simp [chosen_draw], ?_⟩, fun d => rfl, ?_⟩
  · have hlt : sample % (max_d + 1 - min_d) < max_d + 1 - min_d :=
      Nat.mod_lt _ (by omega)
    simp only [chosen_draw]
    omega
  · intro β t hg x hx
    have h := GenBy.leaf_depths_true hg x hx
    simp only [have_reached_a_leaf, TreeGen.perfect, Option.some.injEq,
      decide_eq_true_eq] at h
    exact h

/-- Witness for `perfect_mode_uniform_leaf_depth`: range `[0, 1]`, sample 0
(chosen depth 0), and the single-leaf generated tree. -/
theorem perfect_mode_uniform_leaf_depth_witness :
    (0 : Nat) = chosen_draw 0 1 0 :=
  (perfect_mode_uniform_leaf_depth 0 0 1 (fun _ => false) (by decide)).2.2
    Unit (BTree.node () []) (GenBy.leaf 0 () rfl) 0 (List.Mem.head [])

/-- C4: in `full` mode with `min_depth < max_depth`, the leaf decision at
depth `d` is: forced `true` at `d = max_depth`; otherwise, for
`d ≥ min_depth`, exactly the outcome of the per-node `gen_bool` coin asked
with probability `1 / (max_depth - min_depth)`; otherwise `false`. -/
theorem full_mode_decision (min_d max_d : Nat) (gb : ℚ → Bool) (d : Nat)
    (hlt : min_d < max_d) :
    have_reached_a_leaf (TreeGen.full min_d max_d) gb d =
      some (if d = max_d then true
            else if min_d ≤ d then gb (1 / ((max_d - min_d : Nat) : ℚ))
            else false) := by
  simp only [have_reached_a_leaf, TreeGen.full]
  by_cases h1 : d = max_d
  · simp [h1]
  · simp only [if_neg h1]
    by_cases h2 : min_d ≤ d
    · have hz : ¬ (max_d - min_d = 0) := by omega
      simp [h2, hz]
    · simp [h2]

/-- Witness for `full_mode_decision`: range `[0, 2]` at depth 1 with an
always-true coin. -/
theorem full_mode_decision_witness :
    have_reached_a_leaf (TreeGen.full 0 2) (fun _ => true) 1 =
      some (if 1 = 2 then true
            else if 0 ≤ 1 then (fun _ : ℚ => true) (1 / ((2 - 0 : Nat) : ℚ))
            else false) :=
  full_mode_decision 0 2 (fun _ => true) 1 (by decide)

/-- C5: `full_ranged` stores the same construction-time draw as `perfect`
(the shared `gen_range(min_depth, max_depth + 1)` mechanics), and its leaf
decision coincides, at every depth and for every coin oracle, with the `full`
decision rule in which the chosen depth replaces `max_depth` — forced leaf at
the chosen depth, the `1 / (chosen_depth - min_depth)` coin for
`min_depth ≤ d` (division by zero and all), `false` below `min_depth`. -/
theorem full_ranged_refines_full (sample min_d max_d : Nat) :
    ∃ c, (TreeGen.perfect sample min_d max_d).mode = TreeGenMode.Perfect c ∧
      (TreeGen.full_ranged sample min_d max_d).mode = TreeGenMode.FullRanged c ∧
      ∀ (gb : ℚ → Bool) (d : Nat),
        have_reached_a_leaf (TreeGen.full_ranged sample min_d max_d) gb d
          = have_reached_a_leaf (TreeGen.full min_d c) gb d := by
  exact ⟨chosen_draw min_d max_d sample, rfl, rfl, fun gb d => rfl⟩

/-- C8: with `max_depth == min_depth` in `full` mode the `depth_interval` is
0 and is unguarded: at any depth where the probabilistic branch is reached
(here `min_depth + 1`, which skips both the forced-leaf test and the
`d ≥ min_depth` guard), the probability computation is `1.0 / 0` — the
degenerate division embedded as `none`. -/
theorem full_mode_zero_interval_division_by_zero (m : Nat) (gb : ℚ → Bool) :
    (TreeGen.full m m).max_depth - (TreeGen.full m m).min_depth = 0 ∧
    ∃ d, (TreeGen.full m m).min_depth ≤ d ∧ d ≠ (TreeGen.full m m).max_depth ∧
      have_reached_a_leaf (TreeGen.full m m) gb d = none := by
  refine ⟨by simp [TreeGen.full], m + 1, by simp [TreeGen.full], by simp [TreeGen.full], ?_⟩
  simp only [have_reached_a_leaf, TreeGen.full]
  rw [if_neg (by omega), if_pos (by omega), if_pos (by omega)]

/-- C6: `hard_prune(max_depth)` is exactly the `one_point` procedure
(metadata recompute included) followed by `prune_at(max_depth)` on
individual 1 only — in particular individual 2 is returned structurally
equal to what plain `one_point` produces from the same random draws, and it
fails exactly when `one_point` fails. -/
theorem hard_prune_is_one_point_then_prune (ind1 ind2 : Individual α)
    (md r1 r2 : Nat) :
    (mate_hard_prune ind1 ind2 md r1 r2).map Prod.snd
      = (mate_one_point ind1 ind2 r1 r2).map Prod.snd ∧
    ∀ a b, mate_one_point ind1 ind2 r1 r2 = some (a, b) →
      mate_hard_prune ind1 ind2 md r1 r2 = some (a.prune_at md, b) := by
  constructor
  · simp only [mate_hard_prune, Option.map_map]
    cases mate_one_point ind1 ind2 r1 r2 <;> simp
  · intro a b h
    simp [mate_hard_prune, h]

/-- Witness for `hard_prune_is_one_point_then_prune`: two single-leaf
individuals, where `one_point` swaps the two roots. -/
theorem hard_prune_is_one_point_then_prune_witness :
    mate_hard_prune (Individual.mk (BTree.node 0 []) 1)
        (Individual.mk (BTree.node 1 []) 1) 3 0 0
      = some ((Individual.mk (BTree.node 1 []) 1).prune_at 3,
              Individual.mk (BTree.node 0 []) 1) :=
  (hard_prune_is_one_point_then_prune (Individual.mk (BTree.node 0 []) 1)
    (Individual.mk (BTree.node 1 []) 1) 3 0 0).2
    (Individual.mk (BTree.node 1 []) 1) (Individual.mk (BTree.node 0 []) 1) rfl

/-- C9: an Individual whose `nodes_count` is 0 makes `mate` (one-point mode)
draw over the empty range `[0, 0)`, which is fatal — the call panics
(`none`) instead of returning a pair or an invalid index. -/
theorem mate_empty_range_fatal (ind1 ind2 : Individual α) (r1 r2 : Nat)
    (h : ind1.nodes_count = 0 ∨ ind2.nodes_count = 0) :
    mate_one_point ind1 ind2 r1 r2 = none := by
  simp only [mate_one_point]
  rcases h with h | h
  · simp [gen_range, h]
  · rw [h]
    cases gen_range 0 ind1.nodes_count r1 <;> simp [gen_range]

/-- Witness for `mate_empty_range_fatal`: an individual with cached count 0
on the first position. -/
theorem mate_empty_range_fatal_witness :
    mate_one_point (Individual.mk (BTree.node 0 []) 0)
      (Individual.mk (BTree.node 1 []) 1) 4 4 = none :=
  mate_empty_range_fatal (Individual.mk (BTree.node 0 []) 0)
    (Individual.mk (BTree.node 1 []) 1) 4 4 (Or.inl rfl)

/-- C10: the soft-target decrement of `one_point_leaf_biased` has no lower
guard: with tree 2 a single leaf, coin outcome `internal` (`leaf = false`)
and drawn `target_index2 = 0` (the only value in `[0, 1)`), the very first
visited node mismatches and `target_index2 -= 1` executes at 0 — the `usize`
subtraction underflows and no node is selected. -/
theorem leaf_biased_target_underflow :
    lb_walk false (BTree.node 0 []) (BTree.node 1 []) 0 0
      = WalkRes.underflow ∧
    mate_one_point_leaf_biased (Individual.new_from_tree (BTree.node 0 []))
      (Individual.new_from_tree (BTree.node 1 [])) false 0 0 = none := by
  exact ⟨rfl, rfl⟩

/-- C7: `one_point_leaf_biased` never recomputes metadata: whenever the call
returns (does not panic), both returned individuals carry exactly the cached
`nodes_count` values they were called with — even in cases (second conjunct,
a concrete exchange) where the swap changed the true node counts of both
trees. -/
theorem leaf_biased_keeps_stale_metadata :
    (∀ (β : Type) (ind1 ind2 : Individual β) (lf : Bool) (r1 r2 : Nat)
        (a b : Individual β),
        mate_one_point_leaf_biased ind1 ind2 lf r1 r2 = some (a, b) →
        a.nodes_count = ind1.nodes_count ∧ b.nodes_count = ind2.nodes_count) ∧
    (∃ (ind1 ind2 a b : Individual Nat) (lf : Bool) (r1 r2 : Nat),
        mate_one_point_leaf_biased ind1 ind2 lf r1 r2 = some (a, b) ∧
        a.nodes_count = ind1.nodes_count ∧ b.nodes_count = ind2.nodes_count ∧
        a.nodes_count ≠ count_nodes a.tree ∧
        b.nodes_count ≠ count_nodes b.tree) := by
  constructor
  · intro β ind1 ind2 lf r1 r2 a b h
    simp only [mate_one_point_leaf_biased] at h
    cases hg1 : gen_range 0 ind1.nodes_count r1 with
    | none => rw [hg1] at h; exact Option.noConfusion h
    | some i1 =>
      cases hg2 : gen_range 0 ind2.nodes_count r2 with
      | none => rw [hg1, hg2] at h; exact Option.noConfusion h
      | some i2 =>
        simp only [hg1, hg2] at h
        cases hs : subtree_at ind1.tree i1 with
        | none =>
          simp only [hs, Option.some.injEq, Prod.mk.injEq] at h
          obtain ⟨h1, h2⟩ := h
          subst h1; subst h2
          exact ⟨rfl, rfl⟩
        | some s1 =>
          cases hw : lb_walk lf s1 ind2.tree i2 0 with
          | underflow => simp only [hs, hw] at h; exact Option.noConfusion h
          | cont t' k' =>
            simp only [hs, hw, Option.some.injEq, Prod.mk.injEq] at h
            obtain ⟨h1, h2⟩ := h
            subst h1; subst h2
            exact ⟨rfl, rfl⟩
          | found t2 ex =>
            simp only [hs, hw, Option.some.injEq, Prod.mk.injEq] at h
            obtain ⟨h1, h2⟩ := h
            subst h1; subst h2
            exact ⟨rfl, rfl⟩
  · refine ⟨Individual.mk (BTree.node 0 [BTree.node 1 []]) 2,
      Individual.mk (BTree.node 2 [BTree.node 3 [], BTree.node 4 []]) 3,
      Individual.mk (BTree.node 0 [BTree.node 2 [BTree.node 3 [], BTree.node 4 []]]) 2,
      Individual.mk (BTree.node 1 []) 3, false, 1, 0, rfl, rfl, rfl,
      by decide, by decide⟩

/-- Witness for `leaf_biased_keeps_stale_metadata` at the concrete exchange
of its existential part. -/
theorem leaf_biased_keeps_stale_metadata_witness :
    (Individual.mk (BTree.node 0 [BTree.node 2 [BTree.node 3 [], BTree.node 4 []]]) 2).nodes_count
        = (Individual.mk (BTree.node 0 [BTree.node 1 []]) 2).nodes_count ∧
    (Individual.mk (BTree.node 1 []) 3).nodes_count
        = (Individual.mk (BTree.node 2 [BTree.node 3 [], BTree.node 4 []]) 3).nodes_count :=
  leaf_biased_keeps_stale_metadata.1 Nat
    (Individual.mk (BTree.node 0 [BTree.node 1 []]) 2)
    (Individual.mk (BTree.node 2 [BTree.node 3 [], BTree.node 4 []]) 3)
    false 1 0
    (Individual.mk (BTree.node 0 [BTree.node 2 [BTree.node 3 [], BTree.node 4 []]]) 2)
    (Individual.mk (BTree.node 1 []) 3) rfl
